import Mathlib

/-!
Shallow embedding of `src/pylib/versions.py` (module `pylib.versions`).

Strings are modelled as `List Char`.  Python integers are modelled as `Int`
(the parsers only ever produce non-negative values, except for the Jenkins
sentinel patch `-1`).  Fallible construction (`__init__` raising on a failed
regex match) is modelled with `Option`: `none` is the construction failure.
-/

/-! ## Definitions -/

/-- Embeds `VersionUpdateTypes` (versions.py, lines 19-25). -/
inductive VersionUpdateTypes where
  | MAJOR
  | MINOR
  | PATCH
  | RESEAT
deriving DecidableEq, Repr, Fintype

/-- Embeds the shared field shape of `Version` and its two subclasses:
`major`, `minor`, `patch` attributes holding Python integers. -/
structure Version where
  major : Int
  minor : Int
  patch : Int
deriving DecidableEq, Repr

/-- Embeds the loop body of `Version.determine_greatest_update_type`
(versions.py, lines 49-66): one `if/elif` pass updating `greatest`.
Note the first branch (a RESEAT seen while `greatest` is not
PATCH/MINOR/MAJOR) executes `pass`, leaving `greatest` unchanged. -/
def Version.greatestStep (greatest : Option VersionUpdateTypes)
    (version : VersionUpdateTypes) : Option VersionUpdateTypes :=
  if version = VersionUpdateTypes.RESEAT ∧
      greatest ≠ some VersionUpdateTypes.PATCH ∧
      greatest ≠ some VersionUpdateTypes.MINOR ∧
      greatest ≠ some VersionUpdateTypes.MAJOR then
    greatest
  else if version = VersionUpdateTypes.PATCH ∧
      greatest ≠ some VersionUpdateTypes.MINOR ∧
      greatest ≠ some VersionUpdateTypes.MAJOR then
    some VersionUpdateTypes.PATCH
  else if version = VersionUpdateTypes.MINOR ∧
      greatest ≠ some VersionUpdateTypes.MAJOR then
    some VersionUpdateTypes.MINOR
  else if version = VersionUpdateTypes.MAJOR then
    some VersionUpdateTypes.MAJOR
  else
    greatest

/-- Embeds `Version.determine_greatest_update_type` (versions.py, lines 31-68):
`greatest = None`, then the scan loop, then `return greatest`. -/
def Version.determine_greatest_update_type
    (versions : List VersionUpdateTypes) : Option VersionUpdateTypes :=
  versions.foldl Version.greatestStep none

/-- Embeds `Version.determine_update_types` (versions.py, lines 70-97):
append MAJOR / MINOR / PATCH when the absolute component difference is
positive, in that fixed order. -/
def Version.determine_update_types (self v1 : Version) :
    List VersionUpdateTypes :=
  (if 0 < |self.major - v1.major| then [VersionUpdateTypes.MAJOR] else []) ++
    (if 0 < |self.minor - v1.minor| then [VersionUpdateTypes.MINOR] else []) ++
      (if 0 < |self.patch - v1.patch| then [VersionUpdateTypes.PATCH] else [])

/-- Analysis helper (not from the source): severity rank of the accumulator
`greatest` of the scan loop. -/
def updateRank : Option VersionUpdateTypes → Nat
  | none => 0
  | some VersionUpdateTypes.RESEAT => 1
  | some VersionUpdateTypes.PATCH => 2
  | some VersionUpdateTypes.MINOR => 3
  | some VersionUpdateTypes.MAJOR => 4

/-- Analysis helper (not from the source): the rank an input element can
raise the accumulator to.  A RESEAT input never changes the accumulator
(the RESEAT branch of the loop is `pass`), hence rank 0. -/
def inputRank : VersionUpdateTypes → Nat
  | VersionUpdateTypes.RESEAT => 0
  | VersionUpdateTypes.PATCH => 2
  | VersionUpdateTypes.MINOR => 3
  | VersionUpdateTypes.MAJOR => 4

/-- Analysis helper (not from the source): accumulator value from a rank. -/
def ofRank : Nat → Option VersionUpdateTypes
  | 0 => none
  | 1 => some VersionUpdateTypes.RESEAT
  | 2 => some VersionUpdateTypes.PATCH
  | 3 => some VersionUpdateTypes.MINOR
  | _ => some VersionUpdateTypes.MAJOR

/-- Analysis helper (not from the source): greatest input rank of a list. -/
def maxInputRank (l : List VersionUpdateTypes) : Nat :=
  l.foldr (fun v r => max (inputRank v) r) 0

/-- Embeds the digit class of the required grammars as ASCII `[0-9]`.
CPython's `\d` on `str` patterns additionally matches every Unicode decimal
digit (category Nd) and `int()` parses those; that divergence of the program
from the required grammar is recorded under the error-handling claim and is
not modelled here (a full Unicode digit table is outside this embedding);
on ASCII input the two coincide. -/
def isDigitChar (c : Char) : Bool :=
  decide (48 ≤ c.toNat ∧ c.toNat ≤ 57)

/-- Embeds the character class `[0-9a-zA-Z-]` used by the pre-release and
build-metadata parts of the version regexes. -/
def isIdentChar (c : Char) : Bool :=
  decide ((48 ≤ c.toNat ∧ c.toNat ≤ 57) ∨ (65 ≤ c.toNat ∧ c.toNat ≤ 90) ∨
    (97 ≤ c.toNat ∧ c.toNat ≤ 122) ∨ c.toNat = 45)

/-- Embeds the character class `[a-zA-Z_]` of `_ENV_VAR_REGEX`. -/
def isNameStartChar (c : Char) : Bool :=
  decide ((65 ≤ c.toNat ∧ c.toNat ≤ 90) ∨ (97 ≤ c.toNat ∧ c.toNat ≤ 122) ∨
    c.toNat = 95)

/-- Embeds the character class `\w` (`[a-zA-Z0-9_]`) of `_ENV_VAR_REGEX`. -/
def isWordChar (c : Char) : Bool :=
  isDigitChar c || isNameStartChar c

/-- Embeds Python `int()` applied to a captured string of decimal digits. -/
def digitsToNat (ds : List Char) : Nat :=
  ds.foldl (fun n c => 10 * n + (c.toNat - 48)) 0

/-- Fuelled decimal rendering of a natural number (helper for `natToDec`). -/
def natToDecF : Nat → Nat → List Char
  | 0, _ => []
  | fuel + 1, n =>
    if n < 10 then [Char.ofNat (48 + n)]
    else natToDecF fuel (n / 10) ++ [Char.ofNat (48 + n % 10)]

/-- Decimal rendering of a natural number, as produced by Python string
formatting of a non-negative `int`. -/
def natToDec (n : Nat) : List Char :=
  natToDecF (n + 1) n

/-- Embeds Python string formatting `f"{i}"` of an `int`. -/
def intToDec (i : Int) : List Char :=
  if i < 0 then '-' :: natToDec i.natAbs else natToDec i.natAbs

/-- Embeds the f-string `f"{self.major}.{self.minor}.{self.patch}"` used by
`__eq__` and `__str__` of both version classes (versions.py, lines 197-206
and 291-304). -/
def Version.fmt (v : Version) : List Char :=
  intToDec v.major ++ '.' :: (intToDec v.minor ++ '.' :: intToDec v.patch)

/-- Embeds one numeric capture group `(0|[1-9]\d*)` of the version regexes:
consume a maximal run of digits (which must be nonempty and must not have a
leading zero unless it is exactly "0") and return its integer value together
with the unconsumed remainder.  Maximal munch is equivalent to the regex
because the group is always followed by a non-digit (`.`, `-`, `+` or the
end of the string). -/
def parseNum (s : List Char) : Option (Nat × List Char) :=
  let ds := s.takeWhile isDigitChar
  if ds = [] then none
  else if ds.head? = some '0' ∧ ds.length ≠ 1 then none
  else some (digitsToNat ds, s.dropWhile isDigitChar)

/-- Embeds the pre-release identifier alternation
`0|[1-9]\d*|\d*[a-zA-Z-][0-9a-zA-Z-]*`: a nonempty run over `[0-9a-zA-Z-]`
which, if it consists of digits only, has no leading zero. -/
def validPreIdent (run : List Char) : Bool :=
  decide (run ≠ [] ∧
    (run.all isDigitChar = true → run.head? = some '0' → run.length = 1))

/-- Embeds the build identifier `[0-9a-zA-Z-]+`: any nonempty run. -/
def validBuildIdent (run : List Char) : Bool :=
  decide (run ≠ [])

/-- Fuelled parser for a dot-separated identifier sequence
`ident(\.ident)*` (helper for `parseIdents`).  Each identifier is a maximal
run over `[0-9a-zA-Z-]` validated by `valid`; returns the unconsumed
remainder. -/
def parseIdentsF (valid : List Char → Bool) : Nat → List Char → Option (List Char)
  | 0, _ => none
  | fuel + 1, s =>
    if valid (s.takeWhile isIdentChar) then
      match s.dropWhile isIdentChar with
      | '.' :: r => parseIdentsF valid fuel r
      | r => some r
    else none

/-- Parser for a dot-separated identifier sequence, with enough fuel (each
step strictly shrinks the input, so `length + 1` steps always suffice). -/
def parseIdents (valid : List Char → Bool) (s : List Char) : Option (List Char) :=
  parseIdentsF valid (s.length + 1) s

/-- Embeds the trailing part `(?:-(prerelease))?(?:\+(build))?$` shared by
both version regexes, reading the `$` anchor as the true end of input, i.e.
the canonical (spec) grammar: the remainder after the numeric components
must be empty, a `-`-introduced pre-release (optionally followed by a
`+`-introduced build part), or a `+`-introduced build part, reaching the
end of the string.  CPython's `$` (no `re.MULTILINE`) also matches just
before a single trailing newline; the program-faithful acceptance is
embedded separately in `SemanticVersion.rePyMatch` /
`JenkinsVersion.rePyMatch`. -/
def suffixOk (r : List Char) : Bool :=
  match r with
  | [] => true
  | '-' :: r1 =>
    match parseIdents validPreIdent r1 with
    | some [] => true
    | some ('+' :: r2) => parseIdents validBuildIdent r2 == some []
    | _ => false
  | '+' :: r2 => parseIdents validBuildIdent r2 == some []
  | _ => false

/-- Embeds `SEMANTIC_VERSION_REGEX` (versions.py, line 122) under its
canonical reading - the required SemVer grammar, anchored at both true
ends with ASCII digits; on success returns the three numeric capture
groups.  `re.match` in CPython accepts slightly more (a single trailing
newline via `$`, Unicode digits via `\d`); that relaxation is embedded in
`SemanticVersion.rePyMatch`. -/
def SemanticVersion.reMatch (s : List Char) : Option (Nat × Nat × Nat) :=
  match parseNum s with
  | some (maj, '.' :: r1) =>
    match parseNum r1 with
    | some (mnr, '.' :: r2) =>
      match parseNum r2 with
      | some (pat, rest) =>
        if suffixOk rest then some (maj, mnr, pat) else none
      | none => none
    | _ => none
  | _ => none

/-- Embeds `SemanticVersion.__init__` (versions.py, lines 124-129): match
the regex and populate `major`, `minor`, `patch` from the capture groups;
a failed match raises (modelled as `none`). -/
def SemanticVersion.fromString (s : List Char) : Option Version :=
  match SemanticVersion.reMatch s with
  | none => none
  | some (maj, mnr, pat) => some ⟨(maj : Int), (mnr : Int), (pat : Int)⟩

/-- Embeds `SemanticVersion.__eq__` (versions.py, lines 197-202). -/
def SemanticVersion.eq (self v : Version) : Bool :=
  Version.fmt self == Version.fmt v

/-- Embeds `SemanticVersion.__str__` (versions.py, lines 204-206). -/
def SemanticVersion.str (self : Version) : List Char :=
  Version.fmt self

/-- Embeds `JenkinsVersion._IMPLICIT_PATCH_CHANGE_VERSION` (versions.py,
line 228): the sentinel patch value for an absent patch component. -/
def JenkinsVersion.IMPLICIT_PATCH_CHANGE_VERSION : Int := -1

/-- Embeds `JENKINS_VERSION_REGEX` (versions.py, line 233) under its
canonical reading (true end anchor, ASCII digits): like the SemVer regex
but with an optional third numeric group `(?:\.(0|[1-9]\d*))?`, whose
capture is `none` when absent.  The CPython `re.match` relaxation is
embedded in `JenkinsVersion.rePyMatch`. -/
def JenkinsVersion.reMatch (s : List Char) : Option (Nat × Nat × Option Nat) :=
  match parseNum s with
  | some (maj, '.' :: r1) =>
    match parseNum r1 with
    | some (mnr, rest) =>
      match rest with
      | '.' :: r2 =>
        match parseNum r2 with
        | some (pat, rest2) =>
          if suffixOk rest2 then some (maj, mnr, some pat) else none
        | none => none
      | _ => if suffixOk rest then some (maj, mnr, none) else none
    | none => none
  | _ => none

/-- Embeds `JenkinsVersion.__init__` (versions.py, lines 235-248): match the
regex, populate `major` and `minor`, and set `patch` to the captured integer
or to the sentinel when the capture group is absent (falsy). -/
def JenkinsVersion.fromString (s : List Char) : Option Version :=
  match JenkinsVersion.reMatch s with
  | none => none
  | some (maj, mnr, patGroup) =>
    some ⟨(maj : Int), (mnr : Int),
      match patGroup with
      | none => JenkinsVersion.IMPLICIT_PATCH_CHANGE_VERSION
      | some pat => (pat : Int)⟩

/-- Embeds `JenkinsVersion.__eq__` (versions.py, lines 291-296); its body is
identical to `SemanticVersion.__eq__`. -/
def JenkinsVersion.eq (self v : Version) : Bool :=
  Version.fmt self == Version.fmt v

/-- Embeds `JenkinsVersion.__str__` (versions.py, lines 298-304): omit the
patch segment when `patch` is the sentinel. -/
def JenkinsVersion.str (self : Version) : List Char :=
  if self.patch = JenkinsVersion.IMPLICIT_PATCH_CHANGE_VERSION then
    intToDec self.major ++ '.' :: intToDec self.minor
  else Version.fmt self

/-- Embeds what `re.match(SEMANTIC_VERSION_REGEX, version)` accepts in
CPython (versions.py, line 126): without `re.MULTILINE`, the `$` anchor
matches at the end of the string or just before a newline that is the last
character, and no character of the pattern can consume a newline, so the
acceptance is the canonical grammar after stripping one trailing newline
when present.  (CPython additionally accepts non-ASCII Unicode digits via
`\d`; that part is not modelled, see `isDigitChar`.) -/
def SemanticVersion.rePyMatch (s : List Char) : Option (Nat × Nat × Nat) :=
  if s.getLast? = some '\n' then SemanticVersion.reMatch s.dropLast
  else SemanticVersion.reMatch s

/-- Embeds `SemanticVersion.__init__` (versions.py, lines 124-129) with the
CPython `re.match` acceptance of `rePyMatch`. -/
def SemanticVersion.fromStringPy (s : List Char) : Option Version :=
  match SemanticVersion.rePyMatch s with
  | none => none
  | some (maj, mnr, pat) => some ⟨(maj : Int), (mnr : Int), (pat : Int)⟩

/-- Embeds what `re.match(JENKINS_VERSION_REGEX, version)` accepts in
CPython (versions.py, line 237): the canonical grammar after stripping one
trailing newline when present (see `SemanticVersion.rePyMatch`). -/
def JenkinsVersion.rePyMatch (s : List Char) : Option (Nat × Nat × Option Nat) :=
  if s.getLast? = some '\n' then JenkinsVersion.reMatch s.dropLast
  else JenkinsVersion.reMatch s

/-- Embeds `JenkinsVersion.__init__` (versions.py, lines 235-248) with the
CPython `re.match` acceptance of `rePyMatch`. -/
def JenkinsVersion.fromStringPy (s : List Char) : Option Version :=
  match JenkinsVersion.rePyMatch s with
  | none => none
  | some (maj, mnr, patGroup) =>
    some ⟨(maj : Int), (mnr : Int),
      match patGroup with
      | none => JenkinsVersion.IMPLICIT_PATCH_CHANGE_VERSION
      | some pat => (pat : Int)⟩

/-- Embeds truthiness of `re.compile(_ENV_VAR_REGEX).search(env_var)` with
`_ENV_VAR_REGEX = r"^[a-zA-Z_]\w*=.+"` (versions.py, lines 231, 280-281):
the string starts with `[a-zA-Z_]`, continues with word characters up to an
`=`, and has at least one non-newline character after the `=`.  The greedy
`\w*` is deterministic here because `=` is not a word character. -/
def envVarRegexSearch (s : List Char) : Bool :=
  match s with
  | [] => false
  | c :: rest =>
    isNameStartChar c &&
      match rest.dropWhile isWordChar with
      | '=' :: v =>
        match v with
        | [] => false
        | c2 :: _ => decide (c2.toNat ≠ 10)
      | _ => false

/-- Embeds `_JENKINS_VERSION_ENV_VAR_NAME = "JENKINS_VERSION"`
(versions.py, line 232). -/
def JenkinsVersion.JENKINS_VERSION_ENV_VAR_NAME : List Char :=
  ['J', 'E', 'N', 'K', 'I', 'N', 'S', '_', 'V', 'E', 'R', 'S', 'I', 'O', 'N']

/-- Observable side effects of the container-image collaborator used by
`from_docker_image`: pulling and removing an image. -/
inductive DockerAction where
  | pull (image : List Char)
  | remove (image : List Char)
deriving DecidableEq, Repr

/-- Failure outcomes of `from_docker_image`: `NoJenkinsVersionFoundError`
(versions.py, lines 15-16, 287-289) when the scan exhausts the environment
list, and the exception propagating out of `cls(...)` when the matched
entry's value does not match the Jenkins grammar. -/
inductive DockerLookupError where
  | NoJenkinsVersionFoundError
  | ConstructionError
deriving DecidableEq, Repr

/-- Embeds the scan loop of `JenkinsVersion.from_docker_image` (versions.py,
lines 279-289): return `cls(env_var.split("=")[1])` for the first entry that
matches `_ENV_VAR_REGEX` and whose name part equals `JENKINS_VERSION`;
raise `NoJenkinsVersionFoundError` after exhausting the list. -/
def JenkinsVersion.findVersionInEnv :
    List (List Char) → Except DockerLookupError Version
  | [] => Except.error DockerLookupError.NoJenkinsVersionFoundError
  | e :: rest =>
    if envVarRegexSearch e = true ∧
        (List.splitOn '=' e).getD 0 [] =
          JenkinsVersion.JENKINS_VERSION_ENV_VAR_NAME then
      match JenkinsVersion.fromString ((List.splitOn '=' e).getD 1 []) with
      | some v => Except.ok v
      | none => Except.error DockerLookupError.ConstructionError
    else JenkinsVersion.findVersionInEnv rest

/-- Embeds `JenkinsVersion.from_docker_image` (versions.py, lines 250-289).
The Docker client is modelled by the environment list that
`docker_client.images.pull(docker_image).attrs["Config"]["Env"]` returns;
the second component is the trace of collaborator side effects, in order:
the source pulls the image, then removes it, then scans the environment
list (so the removal happens exactly once, before either outcome of the
scan). -/
def JenkinsVersion.from_docker_image (env : List (List Char))
    (image : List Char) :
    Except DockerLookupError Version × List DockerAction :=
  (JenkinsVersion.findVersionInEnv env,
    [DockerAction.pull image, DockerAction.remove image])

/-! ## Theorems -/

theorem ofRank_updateRank : ∀ g, ofRank (updateRank g) = g := by decide

theorem updateRank_greatestStep :
    ∀ g v, updateRank (Version.greatestStep g v) =
      max (updateRank g) (inputRank v) := by decide

theorem foldl_greatestStep (l : List VersionUpdateTypes) :
    ∀ g, l.foldl Version.greatestStep g =
      ofRank (max (updateRank g) (maxInputRank l)) := by
  induction l with
  | nil =>
    intro g
    simp [maxInputRank, ofRank_updateRank]
  | cons v t ih =>
    intro g
    have hmt : maxInputRank (v :: t) = max (inputRank v) (maxInputRank t) := rfl
    simp only [List.foldl_cons]
    rw [ih, updateRank_greatestStep, hmt, Nat.max_assoc]

theorem maxInputRank_members (l : List VersionUpdateTypes) :
    maxInputRank l =
      if VersionUpdateTypes.MAJOR ∈ l then 4
      else if VersionUpdateTypes.MINOR ∈ l then 3
      else if VersionUpdateTypes.PATCH ∈ l then 2
      else 0 := by
  induction l with
  | nil => simp [maxInputRank]
  | cons v t ih =>
    have hmt : maxInputRank (v :: t) = max (inputRank v) (maxInputRank t) := rfl
    rw [hmt, ih]
    cases v <;> simp [inputRank, List.mem_cons] <;> split_ifs <;> omega

theorem determine_greatest_members (l : List VersionUpdateTypes) :
    Version.determine_greatest_update_type l =
      ofRank (if VersionUpdateTypes.MAJOR ∈ l then 4
        else if VersionUpdateTypes.MINOR ∈ l then 3
        else if VersionUpdateTypes.PATCH ∈ l then 2
        else 0) := by
  rw [Version.determine_greatest_update_type, foldl_greatestStep,
    maxInputRank_members]
  simp [updateRank]

/-- C1: evaluating `determine_greatest_update_type` at the failing input.
The Major/Minor/Patch clauses of the claim hold (see
`determine_greatest_members`), but a sequence containing only Reseat yields
`none` (Python `None`), not `RESEAT`: the RESEAT branch of the loop is
`pass`, so `greatest` is never set to `RESEAT`, contradicting both the
claim and the function docstring (None is documented only for empty
input). -/
theorem c1_reseat_only_gives_none :
    Version.determine_greatest_update_type [VersionUpdateTypes.RESEAT] = none := by
  decide

/-- C5: for every pair of versions, `determine_update_types` is a sublist of
`[MAJOR, MINOR, PATCH]` (fixed order, no duplicates, no RESEAT), contains
each kind exactly when the corresponding component differs, and is empty
exactly when no component differs. -/
theorem c5_update_types_exact (v w : Version) :
    (Version.determine_update_types v w).Sublist
      [VersionUpdateTypes.MAJOR, VersionUpdateTypes.MINOR,
        VersionUpdateTypes.PATCH] ∧
    (VersionUpdateTypes.MAJOR ∈ Version.determine_update_types v w ↔
      v.major ≠ w.major) ∧
    (VersionUpdateTypes.MINOR ∈ Version.determine_update_types v w ↔
      v.minor ≠ w.minor) ∧
    (VersionUpdateTypes.PATCH ∈ Version.determine_update_types v w ↔
      v.patch ≠ w.patch) ∧
    VersionUpdateTypes.RESEAT ∉ Version.determine_update_types v w ∧
    (Version.determine_update_types v w).Nodup ∧
    (Version.determine_update_types v w = [] ↔
      (v.major = w.major ∧ v.minor = w.minor ∧ v.patch = w.patch)) := by
  simp only [Version.determine_update_types, abs_sub_pos]
  split_ifs with h1 h2 h3 <;>
    refine ⟨by decide, ?_, ?_, ?_, by decide, by decide, ?_⟩ <;> simp_all

/-- C6: `determine_greatest_update_type` depends only on which kinds occur in
the input (hence is invariant under reordering and duplication), and returns
`none` on the empty sequence. -/
theorem c6_greatest_order_independent (l1 l2 : List VersionUpdateTypes)
    (h : ∀ k, k ∈ l1 ↔ k ∈ l2) :
    Version.determine_greatest_update_type l1 =
      Version.determine_greatest_update_type l2 ∧
    Version.determine_greatest_update_type [] = none := by
  refine ⟨?_, rfl⟩
  rw [determine_greatest_members, determine_greatest_members]
  simp only [h]

/-- C6 witness: a reordered, duplicated list gives the same result, and the
empty list gives `none`. -/
theorem c6_greatest_order_independent_witness :
    Version.determine_greatest_update_type
      [VersionUpdateTypes.MINOR, VersionUpdateTypes.MAJOR,
        VersionUpdateTypes.MINOR] =
      Version.determine_greatest_update_type
        [VersionUpdateTypes.MAJOR, VersionUpdateTypes.MINOR] ∧
    Version.determine_greatest_update_type [] = none :=
  c6_greatest_order_independent _ _ (by decide)

theorem semantic_fromString_fields (s : List Char) (v : Version)
    (h : SemanticVersion.fromString s = some v) :
    0 ≤ v.major ∧ 0 ≤ v.minor ∧ 0 ≤ v.patch := by
  cases hm : SemanticVersion.reMatch s with
  | none => simp [SemanticVersion.fromString, hm] at h
  | some g =>
    obtain ⟨maj, mnr, pat⟩ := g
    simp only [SemanticVersion.fromString, hm, Option.some.injEq] at h
    subst h
    exact ⟨Int.natCast_nonneg maj, Int.natCast_nonneg mnr,
      Int.natCast_nonneg pat⟩

theorem jenkins_fromString_fields (s : List Char) (v : Version)
    (h : JenkinsVersion.fromString s = some v) :
    0 ≤ v.major ∧ 0 ≤ v.minor ∧
      (0 ≤ v.patch ∨ v.patch = JenkinsVersion.IMPLICIT_PATCH_CHANGE_VERSION) := by
  cases hm : JenkinsVersion.reMatch s with
  | none => simp [JenkinsVersion.fromString, hm] at h
  | some g =>
    obtain ⟨maj, mnr, pg⟩ := g
    simp only [JenkinsVersion.fromString, hm, Option.some.injEq] at h
    subst h
    refine ⟨Int.natCast_nonneg maj, Int.natCast_nonneg mnr, ?_⟩
    cases pg with
    | none => exact Or.inr rfl
    | some pat => exact Or.inl (Int.natCast_nonneg pat)

/-- C2: evaluating the code at the failing inputs.  "1.2.3\n" and
"2.333\n" do not match the required grammars (which are anchored at both
true ends), yet CPython's `$` also matches just before a single trailing
newline, so `re.match` succeeds and both constructors produce an instance
instead of failing - contradicting the claim that every grammar-invalid
string fails construction.  (A second divergent family, Unicode digits
accepted by `\d` and `int()`, is hand-traced in the results and not
modelled here.) -/
theorem c2_trailing_newline_constructs :
    SemanticVersion.reMatch ['1', '.', '2', '.', '3', '\n'] = none ∧
      SemanticVersion.fromStringPy ['1', '.', '2', '.', '3', '\n'] =
        some ⟨1, 2, 3⟩ ∧
      JenkinsVersion.reMatch ['2', '.', '3', '3', '3', '\n'] = none ∧
      JenkinsVersion.fromStringPy ['2', '.', '3', '3', '3', '\n'] =
        some ⟨2, 333, -1⟩ := by
  refine ⟨by decide, by decide, by decide, by decide⟩

/-- C3 counterexample: `JenkinsVersion("2.333")` constructs successfully but
its `patch` field is the sentinel `-1`, which is not a non-negative
integer. -/
theorem c3_counterexample_sentinel_negative :
    JenkinsVersion.fromString ['2', '.', '3', '3', '3'] =
        some ⟨2, 333, -1⟩ ∧
      ¬ 0 ≤ (Version.mk 2 333 (-1)).patch := by
  exact ⟨by decide, by decide⟩

/-- C3 as amended: every successfully constructed `SemanticVersion` has all
three fields non-negative, and every successfully constructed
`JenkinsVersion` has non-negative `major` and `minor` while its `patch` is
either non-negative (patch component present) or the sentinel `-1` (patch
component absent). -/
theorem c3_amended_field_invariant (s t : List Char) (v w : Version)
    (hs : SemanticVersion.fromString s = some v)
    (ht : JenkinsVersion.fromString t = some w) :
    (0 ≤ v.major ∧ 0 ≤ v.minor ∧ 0 ≤ v.patch) ∧
      (0 ≤ w.major ∧ 0 ≤ w.minor ∧
        (0 ≤ w.patch ∨
          w.patch = JenkinsVersion.IMPLICIT_PATCH_CHANGE_VERSION)) :=
  ⟨semantic_fromString_fields s v hs,
    jenkins_fromString_fields t w ht⟩

/-- C3 amended witness: concrete constructions satisfy the invariant. -/
theorem c3_amended_field_invariant_witness :
    (0 ≤ (Version.mk 1 2 3).major ∧ 0 ≤ (Version.mk 1 2 3).minor ∧
        0 ≤ (Version.mk 1 2 3).patch) ∧
      (0 ≤ (Version.mk 2 333 (-1)).major ∧
        0 ≤ (Version.mk 2 333 (-1)).minor ∧
        (0 ≤ (Version.mk 2 333 (-1)).patch ∨
          (Version.mk 2 333 (-1)).patch =
            JenkinsVersion.IMPLICIT_PATCH_CHANGE_VERSION)) :=
  c3_amended_field_invariant ['1', '.', '2', '.', '3']
    ['2', '.', '3', '3', '3'] ⟨1, 2, 3⟩ ⟨2, 333, -1⟩ (by decide) (by decide)

/-- C4: for Jenkins-constructed versions, a sentinel-to-sentinel patch is
not reported as a Patch change (in particular "2.333" vs "2.334" yields
exactly `[MINOR]`), while a transition between a sentinel patch and a real
patch always registers as a Patch change. -/
theorem c4_jenkins_sentinel_patch_diff (s t : List Char) (v w : Version)
    (hv : JenkinsVersion.fromString s = some v)
    (hw : JenkinsVersion.fromString t = some w) :
    ((v.patch = JenkinsVersion.IMPLICIT_PATCH_CHANGE_VERSION ∧
        w.patch = JenkinsVersion.IMPLICIT_PATCH_CHANGE_VERSION) →
      VersionUpdateTypes.PATCH ∉ Version.determine_update_types v w) ∧
    (((v.patch = JenkinsVersion.IMPLICIT_PATCH_CHANGE_VERSION ∧
          w.patch ≠ JenkinsVersion.IMPLICIT_PATCH_CHANGE_VERSION) ∨
        (v.patch ≠ JenkinsVersion.IMPLICIT_PATCH_CHANGE_VERSION ∧
          w.patch = JenkinsVersion.IMPLICIT_PATCH_CHANGE_VERSION)) →
      VersionUpdateTypes.PATCH ∈ Version.determine_update_types v w) ∧
    JenkinsVersion.fromString ['2', '.', '3', '3', '3'] =
      some ⟨2, 333, -1⟩ ∧
    JenkinsVersion.fromString ['2', '.', '3', '3', '4'] =
      some ⟨2, 334, -1⟩ ∧
    Version.determine_update_types ⟨2, 333, -1⟩ ⟨2, 334, -1⟩ =
      [VersionUpdateTypes.MINOR] := by
  refine ⟨?_, ?_, by decide, by decide, by decide⟩
  · rintro ⟨hv1, hw1⟩
    have hp : v.patch = w.patch := by rw [hv1, hw1]
    simp only [Version.determine_update_types, hp, sub_self, abs_zero,
      lt_irrefl, if_false]
    split_ifs <;> simp
  · intro hone
    have hvf := jenkins_fromString_fields s v hv
    have hwf := jenkins_fromString_fields t w hw
    have hne : 0 < |v.patch - w.patch| := by
      rw [abs_sub_pos]
      rcases hone with ⟨h1, h2⟩ | ⟨h1, h2⟩
      · rcases hwf.2.2 with hw0 | hw0
        · rw [h1]
          rw [JenkinsVersion.IMPLICIT_PATCH_CHANGE_VERSION] at *
          omega
        · exact absurd hw0 h2
      · rcases hvf.2.2 with hv0 | hv0
        · rw [h2]
          rw [JenkinsVersion.IMPLICIT_PATCH_CHANGE_VERSION] at *
          omega
        · exact absurd hv0 h1
    simp only [Version.determine_update_types, hne, if_true]
    simp

/-- C4 witness: "2.333" to "2.333.5" (sentinel patch to real patch)
registers a Patch change. -/
theorem c4_jenkins_sentinel_patch_diff_witness :
    VersionUpdateTypes.PATCH ∈
      Version.determine_update_types ⟨2, 333, -1⟩ ⟨2, 333, 5⟩ :=
  (c4_jenkins_sentinel_patch_diff ['2', '.', '3', '3', '3']
      ['2', '.', '3', '3', '3', '.', '5'] ⟨2, 333, -1⟩ ⟨2, 333, 5⟩
      (by decide) (by decide)).2.1 (Or.inl ⟨rfl, by decide⟩)

/-- C9: the image-removal side effect of `from_docker_image` occurs exactly
once in the collaborator trace for every lookup, on both outcome paths; and
when no environment entry matches, the lookup fails with
`NoJenkinsVersionFoundError` after scanning the whole list. -/
theorem c9_remove_exactly_once (env : List (List Char)) (image : List Char) :
    List.count (DockerAction.remove image)
        (JenkinsVersion.from_docker_image env image).2 = 1 ∧
      ((∀ e ∈ env, ¬(envVarRegexSearch e = true ∧
          (List.splitOn '=' e).getD 0 [] =
            JenkinsVersion.JENKINS_VERSION_ENV_VAR_NAME)) →
        (JenkinsVersion.from_docker_image env image).1 =
          Except.error DockerLookupError.NoJenkinsVersionFoundError) := by
  constructor
  · simp [JenkinsVersion.from_docker_image, List.count_cons]
  · induction env with
    | nil => intro _; rfl
    | cons e rest ih =>
      intro h
      have hcond := h e (List.mem_cons_self e rest)
      have hrest := ih (fun e' he' => h e' (List.mem_cons_of_mem e he'))
      simp only [JenkinsVersion.from_docker_image] at hrest ⊢
      rw [JenkinsVersion.findVersionInEnv, if_neg hcond]
      exact hrest

/-- C9 witness: a one-entry environment with no JENKINS_VERSION entry. -/
theorem c9_remove_exactly_once_witness :
    List.count (DockerAction.remove ['i'])
        (JenkinsVersion.from_docker_image [['X', '=', '1']] ['i']).2 = 1 ∧
      (JenkinsVersion.from_docker_image [['X', '=', '1']] ['i']).1 =
        Except.error DockerLookupError.NoJenkinsVersionFoundError :=
  ⟨(c9_remove_exactly_once [['X', '=', '1']] ['i']).1,
    (c9_remove_exactly_once [['X', '=', '1']] ['i']).2 (by decide)⟩

theorem char_toNat_inj (a b : Char) (h : a.toNat = b.toNat) : a = b :=
  Char.eq_of_val_eq (UInt32.ext h)

theorem toNat_ofNat_digit (n : Nat) (h1 : 48 ≤ n) (h2 : n ≤ 57) :
    (Char.ofNat n).toNat = n := by
  interval_cases n <;> decide

theorem isDigitChar_ofNat (n : Nat) (h1 : 48 ≤ n) (h2 : n ≤ 57) :
    isDigitChar (Char.ofNat n) = true := by
  simp only [isDigitChar, toNat_ofNat_digit n h1 h2, decide_eq_true_eq]
  exact ⟨h1, h2⟩

theorem digitsToNat_append (xs : List Char) (c : Char) :
    digitsToNat (xs ++ [c]) = 10 * digitsToNat xs + (c.toNat - 48) := by
  simp [digitsToNat, List.foldl_append]

theorem digits_foldl_ge (xs : List Char) :
    ∀ n : Nat, n ≤ xs.foldl (fun n c => 10 * n + (c.toNat - 48)) n := by
  induction xs with
  | nil => intro n; simp
  | cons c t ih =>
    intro n
    simp only [List.foldl_cons]
    calc n ≤ 10 * n + (c.toNat - 48) := by omega
      _ ≤ _ := ih _

theorem digitsToNat_pos (xs : List Char) (h1 : xs ≠ [])
    (h2 : ∀ c ∈ xs, isDigitChar c = true) (h3 : xs.head? ≠ some '0') :
    1 ≤ digitsToNat xs := by
  cases xs with
  | nil => exact absurd rfl h1
  | cons a t =>
    have ha : isDigitChar a = true := h2 a (by simp)
    have hb : 48 ≤ a.toNat ∧ a.toNat ≤ 57 := by
      simpa [isDigitChar] using ha
    have hne : a.toNat ≠ 48 := by
      intro hh
      exact h3 (by
        simp only [List.head?_cons, Option.some.injEq]
        exact char_toNat_inj a '0' (by simpa using hh))
    have h48 : 1 ≤ a.toNat - 48 := by omega
    have hstep : digitsToNat (a :: t) =
        t.foldl (fun n c => 10 * n + (c.toNat - 48)) (a.toNat - 48) := by
      simp [digitsToNat]
    rw [hstep]
    exact le_trans h48 (digits_foldl_ge t _)

theorem natToDecF_sound : ∀ fuel n, n < fuel →
    (∀ c ∈ natToDecF fuel n, isDigitChar c = true) ∧
      natToDecF fuel n ≠ [] ∧
      digitsToNat (natToDecF fuel n) = n ∧
      (1 ≤ n → (natToDecF fuel n).head? ≠ some '0') := by
  intro fuel
  induction fuel with
  | zero => intro n hn; omega
  | succ fuel ih =>
    intro n hn
    by_cases h10 : n < 10
    · simp only [natToDecF, if_pos h10]
      have ht : (Char.ofNat (48 + n)).toNat = 48 + n :=
        toNat_ofNat_digit (48 + n) (by omega) (by omega)
      refine ⟨?_, by simp, ?_, ?_⟩
      · intro c hc
        rw [List.mem_singleton] at hc
        subst hc
        exact isDigitChar_ofNat (48 + n) (by omega) (by omega)
      · simp [digitsToNat, ht]
      · intro hpos heq
        rw [List.head?_cons, Option.some.injEq] at heq
        have hzn := congrArg Char.toNat heq
        rw [ht] at hzn
        have h0 : ('0' : Char).toNat = 48 := by decide
        omega
    · have hdn : n / 10 < n := Nat.div_lt_self (by omega) (by norm_num)
      have hdf : n / 10 < fuel := by omega
      obtain ⟨ihd, ihn, ihv, ihh⟩ := ih (n / 10) hdf
      have htc : (Char.ofNat (48 + n % 10)).toNat = 48 + n % 10 :=
        toNat_ofNat_digit (48 + n % 10) (by omega) (by
          have := Nat.mod_lt n (show 0 < 10 by norm_num)
          omega)
      simp only [natToDecF, if_neg h10]
      refine ⟨?_, by simp, ?_, ?_⟩
      · intro c hc
        rw [List.mem_append, List.mem_singleton] at hc
        rcases hc with hc | hc
        · exact ihd c hc
        · subst hc
          exact isDigitChar_ofNat (48 + n % 10) (by omega) (by
            have := Nat.mod_lt n (show 0 < 10 by norm_num)
            omega)
      · rw [digitsToNat_append, ihv, htc]
        have := Nat.div_add_mod n 10
        omega
      · intro _
        rw [List.head?_append_of_ne_nil _ ihn]
        exact ihh (by omega)

theorem natToDec_spec (n : Nat) :
    (∀ c ∈ natToDec n, isDigitChar c = true) ∧
      natToDec n ≠ [] ∧
      digitsToNat (natToDec n) = n ∧
      (1 ≤ n → (natToDec n).head? ≠ some '0') :=
  natToDecF_sound (n + 1) n (by omega)

theorem natToDecF_fuel_irrel : ∀ n f1 f2, n < f1 → n < f2 →
    natToDecF f1 n = natToDecF f2 n := by
  intro n
  induction n using Nat.strong_induction_on with
  | _ n ih =>
    intro f1 f2 h1 h2
    cases f1 with
    | zero => omega
    | succ fa =>
      cases f2 with
      | zero => omega
      | succ fb =>
        simp only [natToDecF]
        by_cases h10 : n < 10
        · simp [h10]
        · simp only [if_neg h10]
          have hd : n / 10 < n := Nat.div_lt_self (by omega) (by norm_num)
          rw [ih (n / 10) hd fa fb (by omega) (by omega)]

theorem natToDec_digitsToNat : ∀ ds : List Char, ds ≠ [] →
    (∀ c ∈ ds, isDigitChar c = true) →
    (ds.head? = some '0' → ds.length = 1) →
    natToDec (digitsToNat ds) = ds := by
  intro ds
  induction ds using List.reverseRecOn with
  | nil => intro h; exact absurd rfl h
  | append_singleton xs d ihx =>
    intro h1 h2 h3
    have hdd : isDigitChar d = true := h2 d (by simp)
    have hdb : 48 ≤ d.toNat ∧ d.toNat ≤ 57 := by
      simpa [isDigitChar] using hdd
    cases xs with
    | nil =>
      have hv : digitsToNat [d] = d.toNat - 48 := by simp [digitsToNat]
      have hlt : d.toNat - 48 < 10 := by omega
      simp only [List.nil_append] at *
      rw [hv, natToDec]
      simp only [natToDecF, if_pos hlt]
      have : Char.ofNat (48 + (d.toNat - 48)) = d := by
        apply char_toNat_inj
        rw [toNat_ofNat_digit _ (by omega) (by omega)]
        omega
      rw [this]
    | cons a t =>
      have hne : (a :: t) ≠ [] := by simp
      have hda : ∀ c ∈ a :: t, isDigitChar c = true := by
        intro c hc
        exact h2 c (List.mem_append_left [d] hc)
      have ha0 : a ≠ '0' := by
        intro hh
        subst hh
        have : ((('0' :: t) ++ [d]).length = 1) := h3 (by simp)
        simp at this
      have hpos : 1 ≤ digitsToNat (a :: t) :=
        digitsToNat_pos (a :: t) hne hda (by simp [ha0])
      have hv : digitsToNat ((a :: t) ++ [d]) =
          10 * digitsToNat (a :: t) + (d.toNat - 48) :=
        digitsToNat_append (a :: t) d
      have hge : 10 ≤ digitsToNat ((a :: t) ++ [d]) := by
        rw [hv]; omega
      have hdiv : digitsToNat ((a :: t) ++ [d]) / 10 = digitsToNat (a :: t) := by
        rw [hv, Nat.mul_add_div (by norm_num)]
        have : (d.toNat - 48) / 10 = 0 := Nat.div_eq_of_lt (by omega)
        omega
      have hmod : digitsToNat ((a :: t) ++ [d]) % 10 = d.toNat - 48 := by
        rw [hv, Nat.mul_add_mod]
        exact Nat.mod_eq_of_lt (by omega)
      rw [natToDec]
      simp only [natToDecF, if_neg (by omega : ¬ digitsToNat ((a :: t) ++ [d]) < 10)]
      rw [hdiv, hmod]
      have hchar : Char.ofNat (48 + (d.toNat - 48)) = d := by
        apply char_toNat_inj
        rw [toNat_ofNat_digit _ (by omega) (by omega)]
        omega
      rw [hchar]
      have hfuel : natToDecF (digitsToNat ((a :: t) ++ [d])) (digitsToNat (a :: t)) =
          natToDec (digitsToNat (a :: t)) :=
        natToDecF_fuel_irrel (digitsToNat (a :: t))
          (digitsToNat ((a :: t) ++ [d])) (digitsToNat (a :: t) + 1)
          (by omega) (by omega)
      rw [hfuel, ihx hne hda (by
        simp only [List.head?_cons, Option.some.injEq]
        intro hh
        exact absurd hh ha0)]

theorem intToDec_natCast (n : Nat) : intToDec (n : Int) = natToDec n := by
  rw [intToDec, if_neg (by omega : ¬ ((n : Int) < 0))]
  simp

theorem dot_not_mem_natToDec (n : Nat) : '.' ∉ natToDec n := by
  intro hmem
  exact absurd ((natToDec_spec n).1 '.' hmem) (by decide)

theorem dot_not_mem_intToDec (i : Int) : '.' ∉ intToDec i := by
  rw [intToDec]
  split_ifs
  · intro hm
    rcases List.mem_cons.mp hm with hm | hm
    · exact absurd hm (by decide)
    · exact dot_not_mem_natToDec _ hm
  · exact dot_not_mem_natToDec _

theorem natToDec_inj (m n : Nat) (h : natToDec m = natToDec n) : m = n := by
  have hm := (natToDec_spec m).2.2.1
  have hn := (natToDec_spec n).2.2.1
  rw [← hm, ← hn, h]

theorem neg_not_mem_natToDec (n : Nat) : '-' ∉ natToDec n := by
  intro hmem
  exact absurd ((natToDec_spec n).1 '-' hmem) (by decide)

theorem intToDec_inj (i j : Int) (h : intToDec i = intToDec j) : i = j := by
  rw [intToDec, intToDec] at h
  split_ifs at h with hi hj hj
  · rw [List.cons.injEq] at h
    have := natToDec_inj _ _ h.2
    omega
  · exfalso
    apply neg_not_mem_natToDec j.natAbs
    rw [← h]
    exact List.mem_cons_self '-' _
  · exfalso
    apply neg_not_mem_natToDec i.natAbs
    rw [h]
    exact List.mem_cons_self '-' _
  · have := natToDec_inj _ _ h
    omega

theorem append_dot_inj : ∀ (a a' b b' : List Char), '.' ∉ a → '.' ∉ a' →
    a ++ '.' :: b = a' ++ '.' :: b' → a = a' ∧ b = b' := by
  intro a
  induction a with
  | nil =>
    intro a' b b' _ ha' h
    cases a' with
    | nil => simpa using h
    | cons c t =>
      exfalso
      simp only [List.nil_append, List.cons_append, List.cons.injEq] at h
      apply ha'
      rw [h.1]
      exact List.mem_cons_self c t
  | cons c t ih =>
    intro a' b b' ha ha' h
    cases a' with
    | nil =>
      exfalso
      simp only [List.cons_append, List.nil_append, List.cons.injEq] at h
      apply ha
      rw [← h.1]
      exact List.mem_cons_self c t
    | cons c' t' =>
      simp only [List.cons_append, List.cons.injEq] at h
      obtain ⟨hc, hrest⟩ := h
      have hta : '.' ∉ t := fun hm => ha (List.mem_cons_of_mem c hm)
      have hta' : '.' ∉ t' := fun hm => ha' (List.mem_cons_of_mem c' hm)
      obtain ⟨h1, h2⟩ := ih t' b b' hta hta' hrest
      exact ⟨by rw [hc, h1], h2⟩

theorem version_fmt_inj (v w : Version) (h : Version.fmt v = Version.fmt w) :
    v = w := by
  rw [Version.fmt, Version.fmt] at h
  obtain ⟨h1, h2⟩ := append_dot_inj _ _ _ _
    (dot_not_mem_intToDec v.major) (dot_not_mem_intToDec w.major) h
  obtain ⟨h3, h4⟩ := append_dot_inj _ _ _ _
    (dot_not_mem_intToDec v.minor) (dot_not_mem_intToDec w.minor) h2
  cases v
  cases w
  simp only [Version.mk.injEq]
  exact ⟨intToDec_inj _ _ h1, intToDec_inj _ _ h3, intToDec_inj _ _ h4⟩

theorem fmt_beq_iff (v w : Version) :
    (Version.fmt v == Version.fmt w) = true ↔
      (v.major = w.major ∧ v.minor = w.minor ∧ v.patch = w.patch) := by
  rw [beq_iff_eq]
  constructor
  · intro h
    rw [version_fmt_inj v w h]
    exact ⟨rfl, rfl, rfl⟩
  · rintro ⟨h1, h2, h3⟩
    have hvw : v = w := by
      cases v
      cases w
      simp only [Version.mk.injEq]
      exact ⟨h1, h2, h3⟩
    rw [hvw]

/-- C8: `JenkinsVersion("2.333")` has the sentinel patch and renders to
"2.333"; `JenkinsVersion("2.333.5")` has patch 5 and renders to "2.333.5";
the two compare unequal (and sentinel never equals 0 either); and in
general Jenkins equality holds iff `major`, `minor`, `patch` are pairwise
equal, the sentinel being equal only to itself. -/
theorem c8_jenkins_sentinel_law :
    JenkinsVersion.fromString ['2', '.', '3', '3', '3'] =
        some ⟨2, 333, -1⟩ ∧
      (Version.mk 2 333 (-1)).patch =
        JenkinsVersion.IMPLICIT_PATCH_CHANGE_VERSION ∧
      JenkinsVersion.str ⟨2, 333, -1⟩ = ['2', '.', '3', '3', '3'] ∧
      JenkinsVersion.fromString ['2', '.', '3', '3', '3', '.', '5'] =
        some ⟨2, 333, 5⟩ ∧
      JenkinsVersion.str ⟨2, 333, 5⟩ =
        ['2', '.', '3', '3', '3', '.', '5'] ∧
      JenkinsVersion.eq ⟨2, 333, -1⟩ ⟨2, 333, 5⟩ = false ∧
      JenkinsVersion.eq ⟨2, 333, -1⟩ ⟨2, 333, 0⟩ = false ∧
      (∀ v w : Version, JenkinsVersion.eq v w = true ↔
        (v.major = w.major ∧ v.minor = w.minor ∧ v.patch = w.patch)) := by
  refine ⟨by decide, by decide, by decide, by decide, by decide, by decide,
    by decide, ?_⟩
  intro v w
  exact fmt_beq_iff v w

/-- C10: equality between a SemanticVersion and a JenkinsVersion is defined
in both directions and holds exactly when `major` and `minor` agree and the
Jenkins `patch` is a real (non-negative) integer equal to the semantic
`patch`; a sentinel-patch JenkinsVersion is never equal to any
SemanticVersion. -/
theorem c10_cross_type_equality (s t : List Char) (sv jv : Version)
    (hs : SemanticVersion.fromString s = some sv)
    (ht : JenkinsVersion.fromString t = some jv) :
    (SemanticVersion.eq sv jv = true ↔
      (sv.major = jv.major ∧ sv.minor = jv.minor ∧ 0 ≤ jv.patch ∧
        jv.patch = sv.patch)) ∧
    (JenkinsVersion.eq jv sv = true ↔
      (sv.major = jv.major ∧ sv.minor = jv.minor ∧ 0 ≤ jv.patch ∧
        jv.patch = sv.patch)) ∧
    (jv.patch = JenkinsVersion.IMPLICIT_PATCH_CHANGE_VERSION →
      SemanticVersion.eq sv jv = false ∧ JenkinsVersion.eq jv sv = false) := by
  have hsf := semantic_fromString_fields s sv hs
  refine ⟨?_, ?_, ?_⟩
  · constructor
    · intro h
      obtain ⟨h1, h2, h3⟩ := (fmt_beq_iff sv jv).mp h
      exact ⟨h1, h2, by omega, h3.symm⟩
    · rintro ⟨h1, h2, _, h4⟩
      exact (fmt_beq_iff sv jv).mpr ⟨h1, h2, h4.symm⟩
  · constructor
    · intro h
      obtain ⟨h1, h2, h3⟩ := (fmt_beq_iff jv sv).mp h
      exact ⟨h1.symm, h2.symm, by omega, h3⟩
    · rintro ⟨h1, h2, _, h4⟩
      exact (fmt_beq_iff jv sv).mpr ⟨h1.symm, h2.symm, h4⟩
  · intro hsent
    rw [JenkinsVersion.IMPLICIT_PATCH_CHANGE_VERSION] at hsent
    constructor
    · apply Bool.eq_false_iff.mpr
      intro h
      obtain ⟨_, _, h3⟩ := (fmt_beq_iff sv jv).mp h
      omega
    · apply Bool.eq_false_iff.mpr
      intro h
      obtain ⟨_, _, h3⟩ := (fmt_beq_iff jv sv).mp h
      omega

/-- C10 witness: `SemanticVersion("1.2.3")` and the sentinel-patch
`JenkinsVersion("1.2")` are unequal in both directions. -/
theorem c10_cross_type_equality_witness :
    SemanticVersion.eq ⟨1, 2, 3⟩ ⟨1, 2, -1⟩ = false ∧
      JenkinsVersion.eq ⟨1, 2, -1⟩ ⟨1, 2, 3⟩ = false :=
  (c10_cross_type_equality ['1', '.', '2', '.', '3'] ['1', '.', '2']
      ⟨1, 2, 3⟩ ⟨1, 2, -1⟩ (by decide) (by decide)).2.2 (by decide)

theorem parseNum_sound (s : List Char) (n : Nat) (r : List Char)
    (h : parseNum s = some (n, r)) :
    s = s.takeWhile isDigitChar ++ r ∧
      s.takeWhile isDigitChar ≠ [] ∧
      (∀ c ∈ s.takeWhile isDigitChar, isDigitChar c = true) ∧
      ((s.takeWhile isDigitChar).head? = some '0' →
        (s.takeWhile isDigitChar).length = 1) ∧
      digitsToNat (s.takeWhile isDigitChar) = n := by
  simp only [parseNum] at h
  split_ifs at h with h1 h2
  simp only [Option.some.injEq, Prod.mk.injEq] at h
  obtain ⟨hn, hr⟩ := h
  refine ⟨?_, h1, ?_, ?_, hn⟩
  · rw [← hr]
    exact (List.takeWhile_append_dropWhile isDigitChar s).symm
  · intro c hc
    exact List.mem_takeWhile_imp hc
  · intro hh
    by_contra hlen
    exact h2 ⟨hh, hlen⟩

theorem SemanticVersion.reMatch_sound (s : List Char) (g : Nat × Nat × Nat)
    (h : SemanticVersion.reMatch s = some g) :
    ∃ d1 d2 d3 rest,
      s = d1 ++ '.' :: (d2 ++ '.' :: (d3 ++ rest)) ∧
        natToDec g.1 = d1 ∧ natToDec g.2.1 = d2 ∧ natToDec g.2.2 = d3 ∧
        suffixOk rest = true := by
  unfold SemanticVersion.reMatch at h
  split at h
  next maj r1 heq1 =>
    split at h
    next mnr r2 heq2 =>
      split at h
      next pat rest heq3 =>
        split_ifs at h with hsuf
        simp only [Option.some.injEq] at h
        subst h
        obtain ⟨hs1, hne1, hd1, hz1, hv1⟩ := parseNum_sound s maj ('.' :: r1) heq1
        obtain ⟨hs2, hne2, hd2, hz2, hv2⟩ := parseNum_sound r1 mnr ('.' :: r2) heq2
        obtain ⟨hs3, hne3, hd3, hz3, hv3⟩ := parseNum_sound r2 pat rest heq3
        have e2 : r1 = r1.takeWhile isDigitChar ++
            ('.' :: (r2.takeWhile isDigitChar ++ rest)) := by
          conv_lhs => rw [hs2]
          rw [← hs3]
        have e1 : s = s.takeWhile isDigitChar ++
            ('.' :: (r1.takeWhile isDigitChar ++
              ('.' :: (r2.takeWhile isDigitChar ++ rest)))) := by
          conv_lhs => rw [hs1]
          rw [← e2]
        refine ⟨s.takeWhile isDigitChar, r1.takeWhile isDigitChar,
          r2.takeWhile isDigitChar, rest, e1, ?_, ?_, ?_, hsuf⟩
        · rw [← hv1]
          exact natToDec_digitsToNat _ hne1 hd1 hz1
        · rw [← hv2]
          exact natToDec_digitsToNat _ hne2 hd2 hz2
        · rw [← hv3]
          exact natToDec_digitsToNat _ hne3 hd3 hz3
      next => cases h
    next => cases h
  next => cases h

/-- C7: for every string accepted by the SemVer grammar, `__str__` renders
exactly the three parsed integers as "major.minor.patch", and the input is
that rendering followed by the discarded suffix, which is empty or a
pre-release (`-`) or build-metadata (`+`) part. -/
theorem c7_semver_to_string (s : List Char) (v : Version)
    (h : SemanticVersion.fromString s = some v) :
    SemanticVersion.str v =
      intToDec v.major ++ '.' :: (intToDec v.minor ++ '.' :: intToDec v.patch) ∧
    ∃ rest, s = SemanticVersion.str v ++ rest ∧
      (rest = [] ∨ (∃ r1, rest = '-' :: r1) ∨ (∃ r1, rest = '+' :: r1)) := by
  refine ⟨rfl, ?_⟩
  cases hm : SemanticVersion.reMatch s with
  | none => simp [SemanticVersion.fromString, hm] at h
  | some g =>
    obtain ⟨maj, mnr, pat⟩ := g
    simp only [SemanticVersion.fromString, hm, Option.some.injEq] at h
    subst h
    obtain ⟨d1, d2, d3, rest, hseq, hd1, hd2, hd3, hsuf⟩ :=
      SemanticVersion.reMatch_sound s (maj, mnr, pat) hm
    refine ⟨rest, ?_, ?_⟩
    · rw [SemanticVersion.str, Version.fmt]
      simp only [intToDec_natCast]
      rw [hd1, hd2, hd3, hseq]
      simp [List.append_assoc]
    · unfold suffixOk at hsuf
      split at hsuf
      next => exact Or.inl rfl
      next r1 => exact Or.inr (Or.inl ⟨r1, rfl⟩)
      next r2 => exact Or.inr (Or.inr ⟨r2, rfl⟩)
      next => cases hsuf

/-- C7 witness: "1.2.3-rc" parses to (1, 2, 3) and the rendering plus the
pre-release suffix reconstitutes the input. -/
theorem c7_semver_to_string_witness :
    ∃ rest, ['1', '.', '2', '.', '3', '-', 'r', 'c'] =
        SemanticVersion.str ⟨1, 2, 3⟩ ++ rest ∧
      (rest = [] ∨ (∃ r1, rest = '-' :: r1) ∨ (∃ r1, rest = '+' :: r1)) :=
  (c7_semver_to_string ['1', '.', '2', '.', '3', '-', 'r', 'c'] ⟨1, 2, 3⟩
    (by decide)).2
